import Mathlib

/-!
Verification development for the change-aggregation and trend-classification
engine of the patch-analyzer repository (src/src/App.tsx).

The TypeScript functions `analyzeChangeTrend` (the spec's `classifyTrend`),
`compareVersions`, and the aggregation effect (groups / statChains /
computedChanges / uniqueOthers, App.tsx lines 1078-1175) are shallowly
embedded below.  JavaScript strings are modelled as Lean `String`
(lists of unicode scalar chars); the regular expressions of the source are
modelled by explicit backtracking matchers that follow the engine's
leftmost / lazy-vs-greedy / alternation-order semantics for the concrete
patterns appearing in the source.  JavaScript floating-point values produced
by `parseFloat` are idealized as exact decimals (`DecNum`); `NaN` is `none`.
The character classes `\s` and `.` use the JavaScript definitions
(unicode white space incl. line terminators, resp. any char except a line
terminator).  `toLowerCase` is modelled on the ASCII and Cyrillic ranges,
which cover the classifier's whole keyword vocabulary.
-/

/-- JavaScript regex `\s` (also the set trimmed by `String.prototype.trim`). -/
def isWsJS (c : Char) : Bool :=
  let n := c.toNat
  n = 32 || n = 9 || n = 10 || n = 13 || n = 11 || n = 12 ||
  n = 160 || n = 5760 || (8192 ≤ n && n ≤ 8202) || n = 8232 || n = 8233 ||
  n = 8239 || n = 8287 || n = 12288 || n = 65279

/-- JavaScript regex `.` without the `s` flag: any char except a line terminator. -/
def isDotChar (c : Char) : Bool :=
  let n := c.toNat
  !(n = 10 || n = 13 || n = 8232 || n = 8233)

/-- ASCII decimal digit (regex `\d`). -/
def isDigit (c : Char) : Bool := 48 ≤ c.toNat && c.toNat ≤ 57

/-- Model of `String.prototype.toLowerCase`, restricted to the ASCII and Cyrillic
letters (the only ranges the classifier's keyword vocabulary uses). -/
def jsLowerChar (c : Char) : Char :=
  let n := c.toNat
  if 65 ≤ n && n ≤ 90 then Char.ofNat (n + 32)
  else if 1040 ≤ n && n ≤ 1071 then Char.ofNat (n + 32)
  else if n = 1025 then Char.ofNat 1105
  else c

def jsToLower (s : String) : String := ⟨s.data.map jsLowerChar⟩

/-- Substring test on char lists (`String.prototype.includes`). -/
def listHas (needle : List Char) : List Char → Bool
  | [] => needle.isPrefixOf []
  | c :: t => needle.isPrefixOf (c :: t) || listHas needle t

/-- Model of `hay.includes(needle)` of JavaScript. -/
def includes (hay needle : String) : Bool := listHas needle.data hay.data

/-- Model of `String.prototype.trim`. -/
def trimJS (l : List Char) : List Char :=
  ((l.dropWhile isWsJS).reverse.dropWhile isWsJS).reverse

/-- Result type of `analyzeChangeTrend` (the string literals
"up" / "down" / "neutral" of the source). -/
inductive Trend where
  | up
  | down
  | neutral
deriving DecidableEq

/-- Condition of the first `if` of `analyzeChangeTrend` (App.tsx 39-43):
explicit removal, or the Russian "больше не" phrase outside the two
exception phrasings. -/
def removalHit (lower : String) : Bool :=
  includes lower "удалено" || includes lower "removed" ||
    (includes lower "больше не" && !(includes lower "больше не уменьшается") &&
      !(includes lower "no longer reduced"))

/-- Condition of the second `if` (App.tsx 48): the "no longer reduced" buff
exception. -/
def exceptionHit (lower : String) : Bool :=
  includes lower "больше не уменьшается" || includes lower "no longer reduced"

/-- The `isInverse` flag of App.tsx 51-55: vocabulary where a lower value is better. -/
def isInverseCtx (lower : String) : Bool :=
  includes lower "перезарядка" || includes lower "cooldown" ||
  includes lower "стоимость" || includes lower "cost" ||
  includes lower "mana" || includes lower "маны" ||
  includes lower "energy" || includes lower "энергии" ||
  includes lower "затраты" || includes lower "время" || includes lower "time"

/-- Keyword fallback, "up" family (App.tsx 81). -/
def upKeyword (lower : String) : Bool :=
  includes lower "увеличен" || includes lower "усилен" ||
  includes lower "increased" || includes lower "buffed" ||
  includes lower "new effect" || includes lower "новый эффект"

/-- Keyword fallback, "down" family (App.tsx 82). -/
def downKeyword (lower : String) : Bool :=
  includes lower "уменьшен" || includes lower "ослаблен" ||
  includes lower "decreased" || includes lower "nerfed" ||
  includes lower "removed" || includes lower "удалено"

/-- Length of a match of one of the three arrow glyphs `→ ⇒ ->` at the head
of the list, if any. -/
def arrowLen : List Char → Option Nat
  | '→' :: _ => some 1
  | '⇒' :: _ => some 1
  | '-' :: '>' :: _ => some 2
  | _ => none

/-- Number of leading white-space chars. -/
def wsCount (l : List Char) : Nat := (l.takeWhile isWsJS).length

/-- Try to match the split separator `\s*(?:→|⇒|->)\s*` of App.tsx 58 at the
head of the list; returns the number of consumed chars.  (Arrow glyphs are
not white space, so the greedy `\s*` never has to backtrack.) -/
def trySep (l : List Char) : Option Nat :=
  let k := wsCount l
  match arrowLen (l.drop k) with
  | none => none
  | some a => some (k + a + wsCount (l.drop (k + a)))

/-- Driver of `String.prototype.split`.  The fuel starts at the input length;
each step consumes at least one char, so the fuel never runs out. -/
def splitGoF : Nat → List Char → List Char → List (List Char)
  | 0, acc, l => [acc.reverse ++ l]
  | _ + 1, acc, [] => [acc.reverse]
  | fuel + 1, acc, c :: rest =>
    match trySep (c :: rest) with
    | some n => acc.reverse :: splitGoF fuel [] ((c :: rest).drop n)
    | none => splitGoF fuel (c :: acc) rest

/-- Model of `text.split(/\s*(?:→|⇒|->)\s*/)` of App.tsx 58. -/
def splitArrows (l : List Char) : List (List Char) := splitGoF l.length [] l

/-- Value of a digit run, most significant digit first. -/
def digitsToNat (l : List Char) : Nat := l.foldl (fun a c => 10 * a + (c.toNat - 48)) 0

/-- Exact decimal number `num / 10 ^ scale`: the idealization of the
floating-point values `parseFloat` produces from matches of
`[-+]?\d+(?:[.,]\d+)?`.  Kept division-free so that all arithmetic reduces
in the kernel. -/
structure DecNum where
  num : Int
  scale : Nat
deriving DecidableEq

/-- The rational value a `DecNum` denotes. -/
def DecNum.toRat (x : DecNum) : Rat := (x.num : Rat) / (10 : Rat) ^ x.scale

def DecNum.add (x y : DecNum) : DecNum :=
  ⟨x.num * (10 : Int) ^ y.scale + y.num * (10 : Int) ^ x.scale, x.scale + y.scale⟩

def DecNum.neg (x : DecNum) : DecNum := ⟨-x.num, x.scale⟩

/-- Strict order on the denoted rationals, by cross multiplication. -/
def DecNum.blt (x y : DecNum) : Bool :=
  x.num * (10 : Int) ^ y.scale < y.num * (10 : Int) ^ x.scale

/-- Match `\d+(?:[.,]\d+)?` at the head of the list.  Returns the number of
consumed chars and the `parseFloat` value of the match with `,` read as the
decimal point (App.tsx 62-63). -/
def tryDigits (l : List Char) : Option (Nat × DecNum) :=
  let d := l.takeWhile isDigit
  if d.isEmpty then none
  else
    match l.drop d.length with
    | p :: rest2 =>
      if p = '.' || p = ',' then
        let f := rest2.takeWhile isDigit
        if f.isEmpty then some (d.length, ⟨digitsToNat d, 0⟩)
        else some (d.length + 1 + f.length,
          ⟨(digitsToNat d : Int) * (10 : Int) ^ f.length + (digitsToNat f : Int), f.length⟩)
      else some (d.length, ⟨digitsToNat d, 0⟩)
    | [] => some (d.length, ⟨digitsToNat d, 0⟩)

/-- Match `[-+]?\d+(?:[.,]\d+)?` at the head of the list. -/
def tryNum : List Char → Option (Nat × DecNum)
  | '-' :: rest => (tryDigits rest).map (fun p => (p.1 + 1, p.2.neg))
  | '+' :: rest => (tryDigits rest).map (fun p => (p.1 + 1, p.2))
  | l => tryDigits l

/-- Driver of `str.match(/[-+]?\d+(?:[.,]\d+)?/g)`: left-to-right scan for
non-overlapping matches.  Fuel as in `splitGoF`. -/
def scanNumsF : Nat → List Char → List DecNum
  | 0, _ => []
  | _ + 1, [] => []
  | fuel + 1, c :: rest =>
    match tryNum (c :: rest) with
    | some (n, v) => v :: scanNumsF fuel ((c :: rest).drop n)
    | none => scanNumsF fuel rest

def scanNums (l : List Char) : List DecNum := scanNumsF l.length l

/-- The `parseVal` helper of App.tsx 60-69: sum of all numeric substrings, `none` when
there are none (the `NaN` case). -/
def parseVal (l : List Char) : Option DecNum :=
  let nums := scanNums l
  if nums.isEmpty then none else some (nums.foldl DecNum.add ⟨0, 0⟩)

/-- Numeric branch of `analyzeChangeTrend` (App.tsx 57-78): `some` exactly
when that branch returns, `none` when control falls through to the keyword
scan. -/
def numericTrend (text : String) (inv : Bool) : Option Trend :=
  match splitArrows text.data with
  | [a, b] =>
    match parseVal a, parseVal b with
    | some f, some t =>
      if f.blt t then some (if inv then Trend.down else Trend.up)
      else if t.blt f then some (if inv then Trend.up else Trend.down)
      else none
    | _, _ => none
  | _ => none

/-- The function `analyzeChangeTrend` of App.tsx 35-85 (the spec's `classifyTrend`). -/
def analyzeChangeTrend (text : String) : Trend :=
  let lower := jsToLower text
  if removalHit lower then Trend.down
  else if exceptionHit lower then Trend.up
  else
    match numericTrend text (isInverseCtx lower) with
    | some tr => tr
    | none =>
      if upKeyword lower then Trend.up
      else if downKeyword lower then Trend.down
      else Trend.neutral

example : analyzeChangeTrend "Cooldown: 10 → 8" = Trend.up := by decide
example : analyzeChangeTrend "Damage: 10 → 8" = Trend.down := by decide
example : analyzeChangeTrend "Slow no longer reduced by tenacity" = Trend.up := by decide

/-!
## The stat-chain line pattern

Backtracking matcher for the anchored regex of App.tsx 1124:
`^(.+?)(?::\s*|\s+)(.*?)\s*(?:→|⇒|->)\s*(.*)$`.
Group 1 is lazy (shortest first); the separator alternation tries the colon
branch before the white-space branch; the greedy `\s*` pieces around the
arrow never change the set of reachable arrow positions (arrow glyphs are
not white space), so they are modelled by `dropWhile`.
-/

/-- Arrow alternation `(?:→|⇒|->)`: remainder after the arrow. -/
def matchArrowSL : List Char → Option (List Char)
  | '→' :: rest => some rest
  | '⇒' :: rest => some rest
  | '-' :: '>' :: rest => some rest
  | _ => none

/-- Match `\s*(?:→|⇒|->)\s*(.*)$` against the whole list; returns group 3. -/
def matchTail (l : List Char) : Option (List Char) :=
  match matchArrowSL (l.dropWhile isWsJS) with
  | none => none
  | some rest =>
    let g3 := rest.dropWhile isWsJS
    if g3.all isDotChar then some g3 else none

/-- Lazy `(.*?)` before `matchTail`: shortest prefix of `.`-chars such that
the tail matches; returns (group 2, group 3). -/
def go2 : List Char → List Char → Option (List Char × List Char)
  | acc, l =>
    match matchTail l with
    | some g3 => some (acc.reverse, g3)
    | none =>
      match l with
      | [] => none
      | c :: rest => if isDotChar c then go2 (c :: acc) rest else none

/-- Try the separator alternation `(?::\s*|\s+)` with group 1 fixed
(`g1rev` reversed); colon branch first. -/
def trySepSL (g1rev : List Char) (rest : List Char) :
    Option (List Char × List Char × List Char) :=
  let colonTry :=
    match rest with
    | ':' :: r =>
      (go2 [] (r.dropWhile isWsJS)).map
        (fun (p : List Char × List Char) => (g1rev.reverse, p.1, p.2))
    | _ => none
  match colonTry with
  | some x => some x
  | none =>
    match rest with
    | c :: r =>
      if isWsJS c then
        (go2 [] (r.dropWhile isWsJS)).map
          (fun (p : List Char × List Char) => (g1rev.reverse, p.1, p.2))
      else none
    | [] => none

/-- Lazy `(.+?)`: grow group 1 one `.`-char at a time, trying the separator
at each boundary. -/
def goMatch : List Char → List Char → Option (List Char × List Char × List Char)
  | accRev, rest =>
    match trySepSL accRev rest with
    | some x => some x
    | none =>
      match rest with
      | [] => none
      | c :: r => if isDotChar c then goMatch (c :: accRev) r else none

/-- Model of `text.match(/^(.+?)(?::\s*|\s+)(.*?)\s*(?:→|⇒|->)\s*(.*)$/)`:
the three capture groups, or `none` when the line does not match. -/
def matchStatLine (s : String) : Option (List Char × List Char × List Char) :=
  match s.data with
  | [] => none
  | c :: r => if isDotChar c then goMatch [c] r else none

/-- The parsed stat line as used in App.tsx 1127-1129:
`(match[1].trim(), match[2].trim(), match[3].trim())`. -/
def statParse (text : String) : Option (String × String × String) :=
  (matchStatLine text).map
    (fun g => (⟨trimJS g.1⟩, ⟨trimJS g.2.1⟩, ⟨trimJS g.2.2⟩))

example : statParse "X: 10 → 15" = some ("X", "10", "15") := by decide
example : statParse "AD 5 → 6:00" = some ("AD", "5", "6:00") := by decide
example : statParse "hello" = none := by decide
example : statParse "" = none := by decide

/-!
## Version comparison (App.tsx 129-139)
-/

/-- Model of `v.split('.')` on char lists. -/
def splitOnDot : List Char → List (List Char)
  | [] => [[]]
  | c :: rest =>
    if c = '.' then [] :: splitOnDot rest
    else
      match splitOnDot rest with
      | [] => [[c]]
      | p :: ps => (c :: p) :: ps

/-- Leading digit-run value, `none` when there is no digit. -/
def digitsVal (l : List Char) : Option Nat :=
  let d := l.takeWhile isDigit
  if d.isEmpty then none else some (digitsToNat d)

/-- Model of `parseInt(s, 10)`: skip leading white space, optional sign, leading
digit run; `none` is the `NaN` case. -/
def parseIntJS (l : List Char) : Option Int :=
  match l.dropWhile isWsJS with
  | [] => none
  | c :: r =>
    if c = '-' then (digitsVal r).map (fun n => -(n : Int))
    else if c = '+' then (digitsVal r).map (fun n => (n : Int))
    else (digitsVal (c :: r)).map (fun n => (n : Int))

/-- The `parse` helper of App.tsx 130: split on dots, parse each segment, drop `NaN`s. -/
def parseVersion (v : String) : List Int :=
  ((splitOnDot v.data).map parseIntJS).filterMap id

/-- First entry differing from 0, or 0: the tail of the App.tsx 133-138 loop
once one of the two segment lists is exhausted (`p[i] || 0` reads the
missing side as 0, so the first nonzero remaining entry decides). -/
def segRemainder : List Int → Int
  | [] => 0
  | a :: as => if a ≠ 0 then a else segRemainder as

/-- The comparison loop of App.tsx 133-138: segments compared pairwise,
missing entries read as 0 (`p[i] || 0`), first difference returned. -/
def compareSegs : List Int → List Int → Int
  | [], ys => -(segRemainder ys)
  | xs, [] => segRemainder xs
  | a :: as, b :: bs => if a ≠ b then a - b else compareSegs as bs

/-- The function `compareVersions` of App.tsx 129-139. -/
def compareVersions (v1 v2 : String) : Int :=
  compareSegs (parseVersion v1) (parseVersion v2)

example : compareVersions "9.1" "10.1" < 0 := by decide
example : compareVersions "10.1" "9.1" > 0 := by decide
example : compareVersions "1.0" "1" = 0 := by decide

/-!
## The aggregation effect (App.tsx 1078-1175)

`history` entries carry a `patch_version` and a `change.details` list of
blocks (`title`, `icon_url`, `changes`); the defensive `if (h.change.details)`
/ `if (d.changes)` null checks of the source correspond to the empty list.
JavaScript `Map`s preserve insertion order, so they are modelled as
association lists extended at the tail.  `history.sort(comparator)` is a
stable sort in every modern engine; it is modelled by a stable insertion
sort, which produces the same list for the consistent total preorder that
`compareVersions` induces.
-/

/-- Stable insertion: the new element goes after every existing element
that is `le` it. -/
def sortedInsert (le : α → α → Bool) (x : α) : List α → List α
  | [] => [x]
  | y :: ys => if le y x then y :: sortedInsert le x ys else x :: y :: ys

/-- Stable sort by repeated insertion. -/
def stableSort (le : α → α → Bool) (l : List α) : List α :=
  l.foldl (fun acc x => sortedInsert le x acc) []

/-- A sub-component block of one release (interface `ChangeBlock`). -/
structure ChangeBlock where
  title : Option String
  icon_url : Option String
  changes : List String
deriving DecidableEq

/-- One release of an entity's history (the fields of
`ChampionHistoryEntry` that the aggregation reads). -/
structure HistoryEntry where
  patch_version : String
  details : List ChangeBlock
deriving DecidableEq

/-- One emitted group of the summary (element of `finalGroups`). -/
structure FinalGroup where
  title : String
  icon : Option String
  changes : List String
deriving DecidableEq

/-- Comparator order used by `history.sort` (App.tsx 1089). -/
def verLe (a b : HistoryEntry) : Bool :=
  compareVersions a.patch_version b.patch_version ≤ 0

/-- The `chronologicalHistory` list of App.tsx 1089. -/
def chronologicalHistory (history : List HistoryEntry) : List HistoryEntry :=
  stableSort verLe history

/-- The group key `d.title || "Основные показатели"` (App.tsx 1094; the empty
string is falsy). -/
def defaultKey : String := "Основные показатели"

def keyOf (b : ChangeBlock) : String :=
  match b.title with
  | some t => if t = "" then defaultKey else t
  | none => defaultKey

/-- The stored icon `d.icon_url || null` (App.tsx 1096; the empty string is falsy). -/
def normIcon (b : ChangeBlock) : Option String :=
  match b.icon_url with
  | some u => if u = "" then none else some u
  | none => none

/-- Value stored in the `groups` map (App.tsx 1085). -/
structure GroupData where
  icon : Option String
  rawChanges : List String
deriving DecidableEq

def lookupG (k : String) : List (String × GroupData) → Option GroupData
  | [] => none
  | (k2, g) :: rest => if k2 = k then some g else lookupG k rest

/-- Push `cs` onto the `rawChanges` of the entry with key `k`. -/
def appendRaw (k : String) (cs : List String) :
    List (String × GroupData) → List (String × GroupData)
  | [] => []
  | (k2, g) :: rest =>
    if k2 = k then (k2, { g with rawChanges := g.rawChanges ++ cs }) :: rest
    else (k2, g) :: appendRaw k cs rest

/-- Processing of one block in the walk (App.tsx 1093-1103): create the
group on first sight (recording `d.icon_url || null` then), then push the
block's change lines. -/
def addBlock (gs : List (String × GroupData)) (b : ChangeBlock) :
    List (String × GroupData) :=
  match lookupG (keyOf b) gs with
  | some _ => appendRaw (keyOf b) b.changes gs
  | none => appendRaw (keyOf b) b.changes (gs ++ [(keyOf b, ⟨normIcon b, []⟩)])

/-- The `groups` map after the chronological walk (App.tsx 1091-1105). -/
def buildGroups (entries : List HistoryEntry) : List (String × GroupData) :=
  entries.foldl (fun gs e => e.details.foldl addBlock gs) []

/-- A stat chain entry (App.tsx 1118): `{ start, end, template }`. -/
structure Chain where
  start : String
  endVal : String
  template : String
deriving DecidableEq

def lookupChain (n : String) : List (String × Chain) → Option Chain
  | [] => none
  | (k, c) :: rest => if k = n then some c else lookupChain n rest

/-- The update `statChains.get(statName)!.end = newVal` (App.tsx 1135). -/
def setEnd (n v : String) : List (String × Chain) → List (String × Chain)
  | [] => []
  | (k, c) :: rest =>
    if k = n then (k, { c with endVal := v }) :: rest
    else (k, c) :: setEnd n v rest

/-- The per-line body of the `value.rawChanges.forEach` loop
(App.tsx 1121-1145): state is `(statChains, otherChanges)`. -/
def stepLine (st : List (String × Chain) × List String) (text : String) :
    List (String × Chain) × List String :=
  match statParse text with
  | some (n, o, v) =>
    match lookupChain n st.1 with
    | none => (st.1 ++ [(n, ⟨o, v, text⟩)], st.2)
    | some _ => (setEnd n v st.1, st.2)
  | none => (st.1, st.2 ++ [text])

/-- State `(statChains, otherChanges)` after the loop. -/
def processLines (lines : List String) : List (String × Chain) × List String :=
  lines.foldl stepLine ([], [])

/-- Model of `Array.from(new Set(...))`: deduplicate keeping the first occurrence. -/
def dedupSeen (seen : List String) : List String → List String
  | [] => []
  | x :: xs => if x ∈ seen then dedupSeen seen xs else x :: dedupSeen (x :: seen) xs

def dedupFirst (l : List String) : List String := dedupSeen [] l

/-- Reconstruction of one chain line (App.tsx 1151-1155). -/
def emitChain (p : String × Chain) : String :=
  p.1 ++ (if includes p.2.template ":" then ": " else " ") ++
    p.2.start ++ " → " ++ p.2.endVal

/-- The `computedChanges` list of one group (App.tsx 1148-1163): reconstructed
chains in map order, then the deduplicated other changes. -/
def computedChanges (lines : List String) : List String :=
  let pr := processLines lines
  pr.1.map emitChain ++ dedupFirst pr.2

/-- The `finalGroups` list (App.tsx 1107-1172): walk the groups in insertion order,
keep those with a nonempty computed change list. -/
def aggregate (history : List HistoryEntry) : List FinalGroup :=
  (buildGroups (chronologicalHistory history)).filterMap (fun g =>
    let cc := computedChanges g.2.rawChanges
    if cc.isEmpty then none else some ⟨g.1, g.2.icon, cc⟩)

example : computedChanges ["X: 10 → 15", "X: 15 → 20"] = ["X: 10 → 20"] := by decide
example : computedChanges ["hello", "hello"] = ["hello"] := by decide
example : aggregate [] = [] := by decide
example :
    aggregate [⟨"1.0", [⟨some "Q", none, ["hello"]⟩, ⟨some "Q", some "i.png", []⟩]⟩]
      = [⟨"Q", none, ["hello"]⟩] := by decide

/-!
## Claim-side characterizations of the chain state
-/

/-- The trimmed stat name a line parses to, if it matches the pattern. -/
def nameOf (t : String) : Option String := (statParse t).map (fun g => g.1)

/-- The trimmed old value of a matching line (junk default otherwise). -/
def oldOf (t : String) : String := ((statParse t).map (fun g => g.2.1)).getD ""

/-- The trimmed new value of a matching line (junk default otherwise). -/
def newOf (t : String) : String := ((statParse t).map (fun g => g.2.2)).getD ""

/-- The chain the spec predicts for one stat name: `start` and `template`
from the first matching occurrence, `end` from the last matching
occurrence. -/
def specChain (name : String) (lines : List String) : Option Chain :=
  match (lines.filter (fun t => nameOf t == some name)).head?,
      (lines.filter (fun t => nameOf t == some name)).getLast? with
  | some f, some lst => some ⟨oldOf f, newOf lst, f⟩
  | _, _ => none

/-- Recursive form of `specChain`, convenient for the fold proof. -/
def specChainRec (name : String) : List String → Option Chain
  | [] => none
  | t :: rest =>
    if nameOf t = some name then
      some ⟨oldOf t,
        (match specChainRec name rest with
         | some s => s.endVal
         | none => newOf t), t⟩
    else specChainRec name rest

/-- Effect of one line on the chain recorded under a fixed stat name. -/
def chainUpd (name : String) (acc : Option Chain) (text : String) : Option Chain :=
  match statParse text with
  | some (n, o, v) =>
    if n = name then
      match acc with
      | none => some ⟨o, v, text⟩
      | some c => some { c with endVal := v }
    else acc
  | none => acc

/-- How a chain already in the accumulator combines with the chain the
remaining lines build. -/
def mergeOpt : Option Chain → Option Chain → Option Chain
  | none, s => s
  | some c, none => some c
  | some c, some s => some { c with endVal := s.endVal }

lemma lookupChain_append (n m : String) (c : Chain) :
    ∀ l, lookupChain n (l ++ [(m, c)]) =
      match lookupChain n l with
      | some c2 => some c2
      | none => if m = n then some c else none := by
  intro l
  induction l with
  | nil => simp [lookupChain]
  | cons p rest ih =>
    obtain ⟨k, c2⟩ := p
    by_cases h : k = n <;> simp [lookupChain, h, ih]

lemma lookupChain_setEnd (n m v : String) :
    ∀ l, lookupChain n (setEnd m v l) =
      if m = n then (lookupChain n l).map (fun c => { c with endVal := v })
      else lookupChain n l := by
  intro l
  induction l with
  | nil => simp [lookupChain, setEnd]
  | cons p rest ih =>
    obtain ⟨k, c⟩ := p
    by_cases hkm : k = m
    · subst hkm
      by_cases hkn : k = n
      · subst hkn; simp [lookupChain, setEnd]
      · simp [lookupChain, setEnd, hkn, Ne.symm hkn]
    · by_cases hkn : k = n
      · subst hkn
        have hmn : ¬ m = k := fun h => hkm h.symm
        simp [lookupChain, setEnd, hkm, hmn]
      · simp [lookupChain, setEnd, hkm, hkn, ih]

lemma stepLine_lookup (name : String) (st : List (String × Chain) × List String)
    (t : String) :
    lookupChain name (stepLine st t).1 = chainUpd name (lookupChain name st.1) t := by
  cases hp : statParse t with
  | none => simp [stepLine, chainUpd, hp]
  | some g =>
    obtain ⟨n, o, v⟩ := g
    cases hl : lookupChain n st.1 with
    | none =>
      simp only [stepLine, chainUpd, hp, hl]
      rw [lookupChain_append]
      by_cases hn : n = name
      · subst hn; rw [hl]
      · cases hx : lookupChain name st.1 <;> simp [hn, hx]
    | some c =>
      simp only [stepLine, chainUpd, hp, hl]
      rw [lookupChain_setEnd]
      by_cases hn : n = name
      · subst hn; rw [hl]; simp
      · simp [hn]

lemma processLines_lookup (name : String) :
    ∀ (lines : List String) (st : List (String × Chain) × List String),
      lookupChain name ((lines.foldl stepLine st).1)
        = lines.foldl (chainUpd name) (lookupChain name st.1) := by
  intro lines
  induction lines with
  | nil => intro st; rfl
  | cons t rest ih =>
    intro st
    simp only [List.foldl_cons]
    rw [ih (stepLine st t), stepLine_lookup]

lemma nameOf_eq_some (t name : String) (h : nameOf t = some name) :
    statParse t = some (name, oldOf t, newOf t) := by
  unfold nameOf at h
  unfold oldOf newOf
  cases hp : statParse t with
  | none => rw [hp] at h; simp at h
  | some g =>
    obtain ⟨g1, g2, g3⟩ := g
    rw [hp] at h
    simp at h
    simp [h]

lemma foldl_chainUpd (name : String) :
    ∀ (lines : List String) (acc : Option Chain),
      lines.foldl (chainUpd name) acc = mergeOpt acc (specChainRec name lines) := by
  intro lines
  induction lines with
  | nil =>
    intro acc
    cases acc <;> rfl
  | cons t rest ih =>
    intro acc
    simp only [List.foldl_cons]
    rw [ih (chainUpd name acc t)]
    by_cases hm : nameOf t = some name
    · have hp := nameOf_eq_some t name hm
      simp only [specChainRec, hm, if_true]
      rw [show chainUpd name acc t
            = (match acc with
               | none => some ⟨oldOf t, newOf t, t⟩
               | some c => some { c with endVal := newOf t }) by
        unfold chainUpd; rw [hp]; simp]
      cases acc <;> cases hs : specChainRec name rest <;> simp [mergeOpt, hs]
    · have hupd : chainUpd name acc t = acc := by
        unfold chainUpd
        cases hp : statParse t with
        | none => rfl
        | some g =>
          obtain ⟨g1, g2, g3⟩ := g
          have : ¬ g1 = name := by
            intro h
            apply hm
            unfold nameOf
            rw [hp, h]
            simp
          simp [this]
      rw [hupd]
      simp only [specChainRec, hm, if_false]

lemma getLast?_cons_ne_none (x : α) : ∀ (l : List α), (x :: l).getLast? ≠ none := by
  intro l
  induction l generalizing x with
  | nil => simp
  | cons y ys ih => rw [List.getLast?_cons_cons]; exact ih y

lemma specChainRec_eq_specChain (name : String) :
    ∀ lines, specChainRec name lines = specChain name lines := by
  intro lines
  induction lines with
  | nil => rfl
  | cons t rest ih =>
    by_cases hm : nameOf t = some name
    · have hmb : (nameOf t == some name) = true := by simp [hm]
      simp only [specChainRec, hm, if_true]
      rw [ih]
      unfold specChain
      simp only [List.filter_cons, hmb, if_true]
      cases hms : rest.filter (fun t => nameOf t == some name) with
      | nil => simp
      | cons m ms2 =>
        cases hg : (m :: ms2).getLast? with
        | none => exact absurd hg (getLast?_cons_ne_none m ms2)
        | some lst =>
          simp only [List.head?_cons, List.getLast?_cons_cons, hg]
    · have hmb : (nameOf t == some name) = false := by simp [hm]
      simp only [specChainRec, hm, if_false]
      rw [ih]
      unfold specChain
      simp [List.filter_cons, hmb]

/-- Chain state after processing a group's lines, characterized per name. -/
lemma processLines_chain (name : String) (lines : List String) :
    lookupChain name (processLines lines).1 = specChain name lines := by
  unfold processLines
  rw [processLines_lookup, show lookupChain name ([] : List (String × Chain)) = none from rfl,
    foldl_chainUpd, specChainRec_eq_specChain]
  rfl

/-- The stat names of the matching lines, in order of appearance. -/
def nameList (lines : List String) : List String := lines.filterMap nameOf

lemma setEnd_keys (n v : String) :
    ∀ l : List (String × Chain), (setEnd n v l).map Prod.fst = l.map Prod.fst := by
  intro l
  induction l with
  | nil => rfl
  | cons p rest ih =>
    obtain ⟨k, c⟩ := p
    by_cases h : k = n <;> simp [setEnd, h, ih]

lemma lookupChain_none_iff (n : String) :
    ∀ l : List (String × Chain), lookupChain n l = none ↔ n ∉ l.map Prod.fst := by
  intro l
  induction l with
  | nil => simp [lookupChain]
  | cons p rest ih =>
    obtain ⟨k, c⟩ := p
    by_cases h : k = n
    · subst h; simp [lookupChain]
    · simp [lookupChain, h, ih, Ne.symm h]

lemma dedupSeen_congr :
    ∀ (l s1 s2 : List String), (∀ x, x ∈ s1 ↔ x ∈ s2) →
      dedupSeen s1 l = dedupSeen s2 l := by
  intro l
  induction l with
  | nil => intro s1 s2 _; rfl
  | cons x xs ih =>
    intro s1 s2 h
    by_cases hx : x ∈ s1
    · simp [dedupSeen, hx, (h x).mp hx, ih s1 s2 h]
    · have hx2 : x ∉ s2 := fun h2 => hx ((h x).mpr h2)
      have hstep : ∀ y, y ∈ x :: s1 ↔ y ∈ x :: s2 := by
        intro y; simp [h y]
      simp [dedupSeen, hx, hx2, ih (x :: s1) (x :: s2) hstep]

lemma keys_foldl :
    ∀ (lines : List String) (st : List (String × Chain) × List String),
      ((lines.foldl stepLine st).1).map Prod.fst
        = st.1.map Prod.fst ++ dedupSeen (st.1.map Prod.fst) (nameList lines) := by
  intro lines
  induction lines with
  | nil => intro st; simp [dedupSeen]
  | cons t rest ih =>
    intro st
    simp only [List.foldl_cons]
    rw [ih (stepLine st t)]
    cases hp : statParse t with
    | none =>
      have hn : nameOf t = none := by unfold nameOf; rw [hp]; rfl
      have hkeys : (stepLine st t).1 = st.1 := by simp [stepLine, hp]
      rw [hkeys]
      unfold nameList
      rw [show List.filterMap nameOf (t :: rest) = List.filterMap nameOf rest by
        simp [List.filterMap_cons, hn]]
    | some g =>
      obtain ⟨n, o, v⟩ := g
      have hn : nameOf t = some n := by unfold nameOf; rw [hp]; rfl
      have hnl : nameList (t :: rest) = n :: nameList rest := by
        unfold nameList
        simp [List.filterMap_cons, hn]
      rw [hnl]
      cases hl : lookupChain n st.1 with
      | some c =>
        have hkeys : (stepLine st t).1 = setEnd n v st.1 := by simp [stepLine, hp, hl]
        have hmem : n ∈ st.1.map Prod.fst := by
          by_contra hnm
          rw [← lookupChain_none_iff] at hnm
          rw [hl] at hnm
          exact Option.noConfusion hnm
        rw [hkeys, setEnd_keys]
        simp [dedupSeen, hmem]
      | none =>
        have hkeys : (stepLine st t).1 = st.1 ++ [(n, ⟨o, v, t⟩)] := by
          simp [stepLine, hp, hl]
        have hnm : n ∉ st.1.map Prod.fst := (lookupChain_none_iff n st.1).mp hl
        rw [hkeys]
        simp only [List.map_append, List.map_cons, List.map_nil]
        rw [show dedupSeen (st.1.map Prod.fst) (n :: nameList rest)
              = n :: dedupSeen (n :: st.1.map Prod.fst) (nameList rest) by
          simp [dedupSeen, hnm]]
        rw [dedupSeen_congr (nameList rest)
          (st.1.map Prod.fst ++ [n]) (n :: st.1.map Prod.fst) (by intro x; simp; tauto)]
        simp

lemma others_foldl :
    ∀ (lines : List String) (st : List (String × Chain) × List String),
      (lines.foldl stepLine st).2
        = st.2 ++ lines.filter (fun t => (statParse t).isNone) := by
  intro lines
  induction lines with
  | nil => intro st; simp
  | cons t rest ih =>
    intro st
    simp only [List.foldl_cons]
    rw [ih (stepLine st t)]
    cases hp : statParse t with
    | none =>
      have h2 : (stepLine st t).2 = st.2 ++ [t] := by simp [stepLine, hp]
      rw [h2, List.filter_cons]
      simp [hp]
    | some g =>
      obtain ⟨n, o, v⟩ := g
      have h2 : (stepLine st t).2 = st.2 := by
        cases hl : lookupChain n st.1 <;> simp [stepLine, hp, hl]
      rw [h2, List.filter_cons]
      simp [hp]

/-- The `otherChanges` list is exactly the non-matching lines, in order. -/
lemma processLines_others (lines : List String) :
    (processLines lines).2 = lines.filter (fun t => (statParse t).isNone) := by
  unfold processLines
  rw [others_foldl]
  rfl

/-- The `statChains` keys are the stat names in order of first occurrence. -/
lemma processLines_keys (lines : List String) :
    ((processLines lines).1).map Prod.fst = dedupFirst (nameList lines) := by
  unfold processLines dedupFirst
  rw [keys_foldl]
  rfl

lemma mem_dedupSeen :
    ∀ (l seen : List String) (x : String),
      x ∈ dedupSeen seen l ↔ x ∈ l ∧ x ∉ seen := by
  intro l
  induction l with
  | nil => intro seen x; simp [dedupSeen]
  | cons y ys ih =>
    intro seen x
    by_cases hy : y ∈ seen
    · rw [show dedupSeen seen (y :: ys) = dedupSeen seen ys by simp [dedupSeen, hy]]
      rw [ih seen x]
      constructor
      · rintro ⟨hx, hs⟩
        exact ⟨List.mem_cons_of_mem y hx, hs⟩
      · rintro ⟨hx, hs⟩
        rcases List.mem_cons.mp hx with h | h
        · exact absurd (h ▸ hy) hs
        · exact ⟨h, hs⟩
    · rw [show dedupSeen seen (y :: ys) = y :: dedupSeen (y :: seen) ys by
        simp [dedupSeen, hy]]
      constructor
      · intro hx
        rcases List.mem_cons.mp hx with h | h
        · exact ⟨h ▸ List.mem_cons_self y ys, h ▸ hy⟩
        · have := (ih (y :: seen) x).mp h
          exact ⟨List.mem_cons_of_mem y this.1,
            fun hs => this.2 (List.mem_cons_of_mem y hs)⟩
      · rintro ⟨hx, hs⟩
        rcases List.mem_cons.mp hx with h | h
        · exact h ▸ List.mem_cons_self y _
        · by_cases hxy : x = y
          · exact hxy ▸ List.mem_cons_self y _
          · exact List.mem_cons_of_mem y
              ((ih (y :: seen) x).mpr ⟨h, by simp [hxy, hs]⟩)

lemma dedupSeen_sublist :
    ∀ (l seen : List String), List.Sublist (dedupSeen seen l) l := by
  intro l
  induction l with
  | nil => intro seen; simp [dedupSeen]
  | cons y ys ih =>
    intro seen
    by_cases hy : y ∈ seen
    · rw [show dedupSeen seen (y :: ys) = dedupSeen seen ys by simp [dedupSeen, hy]]
      exact (ih seen).cons y
    · rw [show dedupSeen seen (y :: ys) = y :: dedupSeen (y :: seen) ys by
        simp [dedupSeen, hy]]
      exact (ih (y :: seen)).cons₂ y

lemma lookupChain_mem (n : String) (c : Chain) :
    ∀ l, lookupChain n l = some c → (n, c) ∈ l := by
  intro l
  induction l with
  | nil => intro h; simp [lookupChain] at h
  | cons p rest ih =>
    obtain ⟨k, c2⟩ := p
    by_cases hk : k = n
    · subst hk
      intro h
      simp [lookupChain] at h
      simp [h]
    · intro h
      simp only [lookupChain, hk, if_false] at h
      exact List.mem_cons_of_mem _ (ih h)

lemma compareSegs_nil_right : ∀ xs : List Int, compareSegs xs [] = segRemainder xs := by
  intro xs
  cases xs with
  | nil => rfl
  | cons a as => rfl

lemma compareSegs_zero_left : ∀ y : List Int, compareSegs [0] y = compareSegs [] y := by
  intro y
  cases y with
  | nil => rfl
  | cons b bs =>
    simp only [compareSegs, segRemainder]
    by_cases hb : b = 0
    · subst hb; simp [compareSegs]
    · simp [hb, Ne.symm hb]

lemma compareSegs_zero_right : ∀ y : List Int, compareSegs y [0] = compareSegs y [] := by
  intro y
  cases y with
  | nil => simp [compareSegs, segRemainder]
  | cons a as =>
    simp only [compareSegs, compareSegs_nil_right, segRemainder]
    by_cases ha : a = 0
    · subst ha; simp [compareSegs_nil_right]
    · simp [ha]

lemma dedupSeen_nodup :
    ∀ (l seen : List String), (dedupSeen seen l).Nodup := by
  intro l
  induction l with
  | nil => intro seen; simp [dedupSeen]
  | cons y ys ih =>
    intro seen
    by_cases hy : y ∈ seen
    · rw [show dedupSeen seen (y :: ys) = dedupSeen seen ys by simp [dedupSeen, hy]]
      exact ih seen
    · rw [show dedupSeen seen (y :: ys) = y :: dedupSeen (y :: seen) ys by
        simp [dedupSeen, hy]]
      refine List.nodup_cons.mpr ⟨fun hmem => ?_, ih (y :: seen)⟩
      exact ((mem_dedupSeen ys (y :: seen) y).mp hmem).2 (List.mem_cons_self y seen)

/-- Asymmetry of the strict decimal order. -/
lemma DecNum.blt_asymm (x y : DecNum) (h : x.blt y = true) : y.blt x = false := by
  unfold DecNum.blt at *
  simp only [decide_eq_true_eq] at h
  simp only [decide_eq_false_iff_not, not_lt]
  omega

/-!
## Claims
-/

/-- C1.  Chain collapsing: within a group's ordered line list, the chain
recorded for each stat name has `start` (and `template`) from the first
matching occurrence and `end` from the last matching occurrence
(`lookupChain _ (processLines _).1 = specChain _ _`); the chain map holds a
single entry per stat name (`Nodup` keys), so one line is emitted per name;
and the spec's example `"X: 10 → 15"` then `"X: 15 → 20"` aggregates to
exactly `["X: 10 → 20"]`. -/
theorem c1_chain_collapsing :
    (∀ (lines : List String) (name : String),
        lookupChain name (processLines lines).1 = specChain name lines)
    ∧ (∀ lines : List String, ((processLines lines).1.map Prod.fst).Nodup)
    ∧ computedChanges ["X: 10 → 15", "X: 15 → 20"] = ["X: 10 → 20"] := by
  refine ⟨fun lines name => processLines_chain name lines, fun lines => ?_, by decide⟩
  rw [processLines_keys]
  exact dedupSeen_nodup _ _

/-- C2, counterexample.  `"Removed: 8 → 10"` splits on the arrow into two
parts whose sums parse (8 and 10, right greater, non-inverse context), yet
`analyzeChangeTrend` returns `down`, not `up`: the removal keyword check
runs before the numeric comparison. -/
theorem c2_counterexample :
    splitArrows "Removed: 8 → 10".data = ["Removed: 8".data, "10".data]
    ∧ parseVal "Removed: 8".data = some ⟨8, 0⟩
    ∧ parseVal "10".data = some ⟨10, 0⟩
    ∧ DecNum.blt ⟨8, 0⟩ ⟨10, 0⟩ = true
    ∧ isInverseCtx (jsToLower "Removed: 8 → 10") = false
    ∧ analyzeChangeTrend "Removed: 8 → 10" = Trend.down := by decide

/-- C2, amended.  For every line that does not trigger the removal check or
the "no longer reduced" exception, that splits on an arrow separator into
exactly two parts with both sides summably numeric: a larger right sum
classifies up in a normal context and down in an inverse context, a smaller
right sum the opposite. -/
theorem c2_inverse_numeric_classification :
    ∀ (text : String) (a b : List Char) (f t : DecNum),
      removalHit (jsToLower text) = false →
      exceptionHit (jsToLower text) = false →
      splitArrows text.data = [a, b] →
      parseVal a = some f →
      parseVal b = some t →
      (f.blt t = true →
        analyzeChangeTrend text
          = (if isInverseCtx (jsToLower text) then Trend.down else Trend.up))
      ∧ (t.blt f = true →
        analyzeChangeTrend text
          = (if isInverseCtx (jsToLower text) then Trend.up else Trend.down)) := by
  intro text a b f t hrem hexc hsplit hf ht
  constructor
  · intro hlt
    unfold analyzeChangeTrend numericTrend
    simp only [hrem, hexc, hsplit, hf, ht, hlt]
    simp
  · intro hlt
    have hflt : f.blt t = false := DecNum.blt_asymm t f hlt
    unfold analyzeChangeTrend numericTrend
    simp only [hrem, hexc, hsplit, hf, ht, hflt, hlt]
    simp

/-- C2, witness: the spec's two examples, via the amended theorem. -/
theorem c2_witness :
    analyzeChangeTrend "Cooldown: 10 → 8" = Trend.up
    ∧ analyzeChangeTrend "Damage: 10 → 8" = Trend.down := by
  constructor
  · have h := (c2_inverse_numeric_classification "Cooldown: 10 → 8"
      "Cooldown: 10".data "8".data ⟨10, 0⟩ ⟨8, 0⟩
      (by decide) (by decide) (by decide) (by decide) (by decide)).2 (by decide)
    exact h.trans (by decide)
  · have h := (c2_inverse_numeric_classification "Damage: 10 → 8"
      "Damage: 10".data "8".data ⟨10, 0⟩ ⟨8, 0⟩
      (by decide) (by decide) (by decide) (by decide) (by decide)).2 (by decide)
    exact h.trans (by decide)

/-- C3, counterexample.  A line containing both "no longer reduced" and the
removal keyword "removed" classifies down, not up: the explicit
removed/удалено keywords are checked before the exception. -/
theorem c3_counterexample :
    includes (jsToLower "Slow removed, no longer reduced by tenacity")
        "no longer reduced" = true
    ∧ analyzeChangeTrend "Slow removed, no longer reduced by tenacity"
        = Trend.down := by decide

/-- C3, amended.  A line containing "no longer reduced" (or
"больше не уменьшается") and containing neither "removed" nor "удалено"
classifies up; the exception is checked before the "больше не" removal
branch (which it disables), but not before the removed/удалено keywords. -/
theorem c3_exception_precedence :
    ∀ text : String,
      (includes (jsToLower text) "no longer reduced" = true
        ∨ includes (jsToLower text) "больше не уменьшается" = true) →
      includes (jsToLower text) "removed" = false →
      includes (jsToLower text) "удалено" = false →
      analyzeChangeTrend text = Trend.up := by
  intro text h hrm hud
  have hrem : removalHit (jsToLower text) = false := by
    unfold removalHit
    rcases h with h | h <;> simp [h, hrm, hud]
  have hexc : exceptionHit (jsToLower text) = true := by
    unfold exceptionHit
    rcases h with h | h <;> simp [h]
  unfold analyzeChangeTrend
  simp only [hrem, hexc]
  simp

/-- C3, witness: the spec's example line, via the amended theorem. -/
theorem c3_witness :
    analyzeChangeTrend "Slow no longer reduced by tenacity" = Trend.up :=
  c3_exception_precedence "Slow no longer reduced by tenacity"
    (Or.inl (by decide)) (by decide) (by decide)

/-- C4, counterexample.  The English phrase "no longer <X>" alone is not a
removal trigger: `"No longer slows enemies"` contains "no longer" (and is
not the exception phrase) yet classifies neutral, not down — only the
Russian "больше не" phrase and the removed/удалено keywords are matched. -/
theorem c4_counterexample :
    includes (jsToLower "No longer slows enemies") "no longer" = true
    ∧ includes (jsToLower "No longer slows enemies") "no longer reduced" = false
    ∧ analyzeChangeTrend "No longer slows enemies" = Trend.neutral := by decide

/-- C4, amended.  A line containing "removed" or "удалено", or containing
"больше не" with neither exception phrasing, classifies down. -/
theorem c4_removal_classification :
    ∀ text : String,
      (includes (jsToLower text) "removed" = true
        ∨ includes (jsToLower text) "удалено" = true
        ∨ (includes (jsToLower text) "больше не" = true
            ∧ includes (jsToLower text) "больше не уменьшается" = false
            ∧ includes (jsToLower text) "no longer reduced" = false)) →
      analyzeChangeTrend text = Trend.down := by
  intro text h
  have hrem : removalHit (jsToLower text) = true := by
    unfold removalHit
    rcases h with h | h | ⟨h1, h2, h3⟩
    · simp [h]
    · simp [h]
    · simp [h1, h2, h3]
  unfold analyzeChangeTrend
  simp only [hrem]
  simp

/-- C4, witness. -/
theorem c4_witness : analyzeChangeTrend "Stun removed" = Trend.down :=
  c4_removal_classification "Stun removed" (Or.inl (by decide))

/-- C6.  Graceful degradation: the model functions are total by
construction (no exceptional control path exists); moreover an empty
history aggregates to the empty summary, a release identifier none of whose
dot segments parses is ordered exactly like version "0", and a line that
does not match the stat pattern is passed through verbatim (also for the
empty line). -/
theorem c6_graceful_degradation :
    aggregate [] = []
    ∧ (∀ v w : String, parseVersion v = [] →
        compareVersions v w = compareVersions "0" w
        ∧ compareVersions w v = compareVersions w "0")
    ∧ (∀ t : String, statParse t = none → computedChanges [t] = [t])
    ∧ computedChanges [""] = [""] := by
  refine ⟨by decide, ?_, ?_, by decide⟩
  · intro v w h
    have h0 : parseVersion "0" = [0] := by decide
    unfold compareVersions
    rw [h, h0, compareSegs_zero_left, compareSegs_zero_right]
    exact ⟨rfl, rfl⟩
  · intro t h
    have hpl : processLines [t] = ([], [t]) := by
      unfold processLines
      simp [stepLine, h]
    unfold computedChanges
    rw [hpl]
    simp [dedupFirst, dedupSeen]

/-- C6, witness. -/
theorem c6_witness :
    compareVersions "abc" "1.2" = compareVersions "0" "1.2"
    ∧ computedChanges ["just some text"] = ["just some text"] :=
  ⟨(c6_graceful_degradation.2.1 "abc" "1.2" (by decide)).1,
    c6_graceful_degradation.2.2.1 "just some text" (by decide)⟩

/-- C7, counterexample.  In `"AD 5 → 6:00"` no colon precedes the old
value (the only colon is inside the new value), yet the reconstructed line
uses the `": "` separator — the source tests `template.includes(':')` over
the whole first-occurrence line, not just the part before the value. -/
theorem c7_counterexample :
    statParse "AD 5 → 6:00" = some ("AD", "5", "6:00")
    ∧ splitArrows "AD 5 → 6:00".data = ["AD 5".data, "6:00".data]
    ∧ ("AD 5".data.contains ':') = false
    ∧ computedChanges ["AD 5 → 6:00"] = ["AD: 5 → 6:00"]
    ∧ computedChanges ["AD 5 → 6:00"] ≠ ["AD 5 → 6:00"] := by decide

/-- C7, amended.  The separator of a reconstructed line is `": "` if and
only if the chain's first-occurrence line (the stored `template`) contains
a colon anywhere, and a single space otherwise; the emitted line is exactly
`name ++ separator ++ start ++ " → " ++ end`, and the template is the first
line of the group whose stat name matches. -/
theorem c7_separator_inference :
    ∀ (lines : List String) (name s e tpl : String),
      lookupChain name (processLines lines).1 = some ⟨s, e, tpl⟩ →
      (name ++ (if includes tpl ":" then ": " else " ") ++ s ++ " → " ++ e)
          ∈ computedChanges lines
      ∧ (lines.filter (fun t => nameOf t == some name)).head? = some tpl := by
  intro lines name s e tpl h
  constructor
  · have hmem : (name, Chain.mk s e tpl) ∈ (processLines lines).1 :=
      lookupChain_mem name ⟨s, e, tpl⟩ (processLines lines).1 h
    unfold computedChanges
    apply List.mem_append_left
    exact List.mem_map.mpr ⟨(name, ⟨s, e, tpl⟩), hmem, rfl⟩
  · have hspec := (processLines_chain name lines).symm.trans h
    unfold specChain at hspec
    cases hh : (lines.filter (fun t => nameOf t == some name)).head? with
    | none => rw [hh] at hspec; simp at hspec
    | some f =>
      rw [hh] at hspec
      cases hg : (lines.filter (fun t => nameOf t == some name)).getLast? with
      | none => rw [hg] at hspec; simp at hspec
      | some lst =>
        rw [hg] at hspec
        simp only [Option.some.injEq] at hspec
        exact congrArg some (congrArg Chain.template hspec)

/-- C7, witness. -/
theorem c7_witness :
    ("AD" ++ (if includes "AD 5 → 6:00" ":" then ": " else " ") ++ "5" ++ " → " ++ "6:00")
        ∈ computedChanges ["AD 5 → 6:00"]
    ∧ (["AD 5 → 6:00"].filter (fun t => nameOf t == some "AD")).head?
        = some "AD 5 → 6:00" :=
  c7_separator_inference ["AD 5 → 6:00"] "AD" "5" "6:00" "AD 5 → 6:00" (by decide)

/-- C9.  Passthrough deduplication: the non-matching lines are collected in
order; the emitted passthrough section is their exact-string deduplication
keeping the first appearance (a `Nodup` sublist with the same members),
each line emitted unchanged; and two identical non-numeric lines from
different releases of the same group collapse to one output entry. -/
theorem c9_passthrough_dedup :
    (∀ lines : List String,
      (processLines lines).2 = lines.filter (fun t => (statParse t).isNone)
      ∧ computedChanges lines
          = (processLines lines).1.map emitChain ++ dedupFirst ((processLines lines).2)
      ∧ (dedupFirst ((processLines lines).2)).Nodup
      ∧ List.Sublist (dedupFirst ((processLines lines).2)) ((processLines lines).2)
      ∧ (∀ x, x ∈ dedupFirst ((processLines lines).2) ↔ x ∈ (processLines lines).2))
    ∧ aggregate
        [⟨"1.0", [⟨some "Q", none, ["Bonus attack speed now scales"]⟩]⟩,
         ⟨"1.1", [⟨some "Q", none, ["Bonus attack speed now scales"]⟩]⟩]
      = [⟨"Q", none, ["Bonus attack speed now scales"]⟩] := by
  refine ⟨fun lines => ⟨processLines_others lines, rfl, dedupSeen_nodup _ _,
    dedupSeen_sublist _ _, fun x => ?_⟩, by decide⟩
  unfold dedupFirst
  rw [mem_dedupSeen]
  simp

/-- C10.  Output order within a group: the computed change list is exactly
the reconstructed chain lines followed by the passthrough lines; the chain
lines appear in order of first occurrence of their stat name (the chain-map
keys are the first-appearance deduplication of the matching lines' names),
and the passthrough lines keep the order of the non-matching lines. -/
theorem c10_output_order :
    ∀ lines : List String,
      computedChanges lines
        = (processLines lines).1.map emitChain ++ dedupFirst ((processLines lines).2)
      ∧ ((processLines lines).1.map Prod.fst) = dedupFirst (nameList lines)
      ∧ (processLines lines).2 = lines.filter (fun t => (statParse t).isNone) :=
  fun lines => ⟨rfl, processLines_keys lines, processLines_others lines⟩

/-!
## Icon retention machinery (C8)
-/

/-- The icon stored for a key, when the key is present. -/
def iconOf (k : String) (gs : List (String × GroupData)) : Option (Option String) :=
  (lookupG k gs).map GroupData.icon

/-- All blocks of the chronological walk, in walk order. -/
def allBlocks (history : List HistoryEntry) : List ChangeBlock :=
  ((chronologicalHistory history).map HistoryEntry.details).flatten

/-- The icon the side condition predicts: `d.icon_url || null` of the first
block with the given key, if any. -/
def iconSpec (k : String) (blocks : List ChangeBlock) : Option (Option String) :=
  ((blocks.filter (fun b => keyOf b == k)).head?).map normIcon

lemma lookupG_append (k m : String) (g : GroupData) :
    ∀ gs, lookupG k (gs ++ [(m, g)]) =
      match lookupG k gs with
      | some g2 => some g2
      | none => if m = k then some g else none := by
  intro gs
  induction gs with
  | nil => simp [lookupG]
  | cons p rest ih =>
    obtain ⟨k2, g2⟩ := p
    by_cases h : k2 = k <;> simp [lookupG, h, ih]

lemma iconOf_cons (k2 k3 : String) (g : GroupData) (rest : List (String × GroupData)) :
    iconOf k2 ((k3, g) :: rest) = if k3 = k2 then some g.icon else iconOf k2 rest := by
  unfold iconOf
  by_cases h : k3 = k2
  · rw [show lookupG k2 ((k3, g) :: rest) = some g by simp [lookupG, h]]
    simp [h]
  · rw [show lookupG k2 ((k3, g) :: rest) = lookupG k2 rest by simp [lookupG, h]]
    simp [h]

lemma appendRaw_icon (k k2 : String) (cs : List String) :
    ∀ gs, iconOf k2 (appendRaw k cs gs) = iconOf k2 gs := by
  intro gs
  induction gs with
  | nil => rfl
  | cons p rest ih =>
    obtain ⟨k3, g⟩ := p
    by_cases h3 : k3 = k
    · rw [show appendRaw k cs ((k3, g) :: rest)
          = (k3, { g with rawChanges := g.rawChanges ++ cs }) :: rest by
        simp [appendRaw, h3]]
      rw [iconOf_cons, iconOf_cons]
    · rw [show appendRaw k cs ((k3, g) :: rest) = (k3, g) :: appendRaw k cs rest by
        simp [appendRaw, h3]]
      rw [iconOf_cons, iconOf_cons, ih]

lemma lookupG_none_iff (k : String) :
    ∀ gs, lookupG k gs = none ↔ k ∉ gs.map Prod.fst := by
  intro gs
  induction gs with
  | nil => simp [lookupG]
  | cons p rest ih =>
    obtain ⟨k2, g⟩ := p
    by_cases h : k2 = k
    · subst h; simp [lookupG]
    · simp [lookupG, h, ih, Ne.symm h]

lemma icon_foldl :
    ∀ (blocks : List ChangeBlock) (gs : List (String × GroupData)) (k : String),
      iconOf k (blocks.foldl addBlock gs) = (iconOf k gs).or (iconSpec k blocks) := by
  intro blocks
  induction blocks with
  | nil =>
    intro gs k
    simp [iconSpec, Option.or_none]
  | cons b bs ih =>
    intro gs k
    simp only [List.foldl_cons]
    rw [ih (addBlock gs b) k]
    by_cases hk : keyOf b = k
    · have hkb : (keyOf b == k) = true := by simp [hk]
      cases hg : lookupG (keyOf b) gs with
      | some g =>
        have haddb : addBlock gs b = appendRaw (keyOf b) b.changes gs := by
          simp [addBlock, hg]
        rw [haddb, appendRaw_icon]
        have : iconOf k gs = some g.icon := by
          unfold iconOf
          rw [← hk, hg]
          rfl
        rw [this]
        rfl
      | none =>
        have haddb : addBlock gs b
            = appendRaw (keyOf b) b.changes (gs ++ [(keyOf b, ⟨normIcon b, []⟩)]) := by
          simp [addBlock, hg]
        rw [haddb, appendRaw_icon]
        have hlk : iconOf k (gs ++ [(keyOf b, (⟨normIcon b, []⟩ : GroupData))])
            = some (normIcon b) := by
          unfold iconOf
          rw [lookupG_append, ← hk, hg]
          simp
        rw [hlk]
        have hnone : iconOf k gs = none := by
          unfold iconOf
          rw [← hk, hg]
          rfl
        rw [hnone]
        have hspec : iconSpec k (b :: bs) = some (normIcon b) := by
          unfold iconSpec
          simp [List.filter_cons, hkb]
        rw [hspec]
        rfl
    · have hkb : (keyOf b == k) = false := by simp [hk]
      have haddb : iconOf k (addBlock gs b) = iconOf k gs := by
        unfold addBlock
        cases hg : lookupG (keyOf b) gs with
        | some g => rw [appendRaw_icon]
        | none =>
          rw [appendRaw_icon]
          unfold iconOf
          rw [lookupG_append]
          cases hx : lookupG k gs with
          | some g2 => simp
          | none => simp [hk]
      rw [haddb]
      have hspec : iconSpec k (b :: bs) = iconSpec k bs := by
        unfold iconSpec
        simp [List.filter_cons, hkb]
      rw [hspec]

lemma appendRaw_keys (k : String) (cs : List String) :
    ∀ gs, (appendRaw k cs gs).map Prod.fst = gs.map Prod.fst := by
  intro gs
  induction gs with
  | nil => rfl
  | cons p rest ih =>
    obtain ⟨k2, g⟩ := p
    by_cases h : k2 = k <;> simp [appendRaw, h, ih]

lemma addBlock_keys_nodup (gs : List (String × GroupData)) (b : ChangeBlock)
    (h : (gs.map Prod.fst).Nodup) : ((addBlock gs b).map Prod.fst).Nodup := by
  unfold addBlock
  cases hg : lookupG (keyOf b) gs with
  | some g =>
    show ((appendRaw (keyOf b) b.changes gs).map Prod.fst).Nodup
    rw [appendRaw_keys]
    exact h
  | none =>
    show ((appendRaw (keyOf b) b.changes
      (gs ++ [(keyOf b, ⟨normIcon b, []⟩)])).map Prod.fst).Nodup
    rw [appendRaw_keys]
    simp only [List.map_append, List.map_cons, List.map_nil]
    have hnm : keyOf b ∉ gs.map Prod.fst := (lookupG_none_iff (keyOf b) gs).mp hg
    simp [List.nodup_append, h, hnm]

lemma buildGroups_keys_nodup :
    ∀ (blocks : List ChangeBlock) (gs : List (String × GroupData)),
      (gs.map Prod.fst).Nodup → ((blocks.foldl addBlock gs).map Prod.fst).Nodup := by
  intro blocks
  induction blocks with
  | nil => intro gs h; exact h
  | cons b bs ih =>
    intro gs h
    simp only [List.foldl_cons]
    exact ih (addBlock gs b) (addBlock_keys_nodup gs b h)

lemma mem_lookupG_of_nodup (k : String) (g : GroupData) :
    ∀ gs, (gs.map Prod.fst).Nodup → (k, g) ∈ gs → lookupG k gs = some g := by
  intro gs
  induction gs with
  | nil => intro _ h; simp at h
  | cons p rest ih =>
    obtain ⟨k2, g2⟩ := p
    intro hnd hmem
    have hnd2 := List.nodup_cons.mp hnd
    rcases List.mem_cons.mp hmem with h | h
    · injection h with h1 h2
      subst h1
      subst h2
      simp [lookupG]
    · by_cases hk : k2 = k
      · subst hk
        exact absurd (List.mem_map.mpr ⟨(k2, g), h, rfl⟩) hnd2.1
      · simp only [lookupG, hk, if_false]
        exact ih hnd2.2 h

lemma buildGroups_blocks :
    ∀ (entries : List HistoryEntry) (gs : List (String × GroupData)),
      entries.foldl (fun gs e => e.details.foldl addBlock gs) gs
        = ((entries.map HistoryEntry.details).flatten).foldl addBlock gs := by
  intro entries
  induction entries with
  | nil => intro gs; rfl
  | cons e es ih =>
    intro gs
    simp only [List.foldl_cons, List.map_cons, List.flatten_cons, List.foldl_append]
    exact ih _

/-- C8, counterexample.  Two blocks of the same key: the first supplies no
icon, the second supplies `"i.png"`.  The claim predicts the emitted icon
is `"i.png"` (first block with a *non-null* icon); the code keeps the first
block's `null` — icons are fixed at group creation. -/
theorem c8_counterexample :
    aggregate [⟨"1.0", [⟨some "Q", none, ["hello"]⟩, ⟨some "Q", some "i.png", []⟩]⟩]
      = [⟨"Q", none, ["hello"]⟩]
    ∧ keyOf ⟨some "Q", some "i.png", []⟩ = "Q"
    ∧ normIcon ⟨some "Q", some "i.png", []⟩ = some "i.png" := by decide

/-- C8, amended.  Every emitted group's icon is `d.icon_url || null` of the
*first* block (in chronological walk order) whose key is the group's title
— whether or not that icon is null; later blocks never override it. -/
theorem c8_icon_retention :
    ∀ (history : List HistoryEntry) (g : FinalGroup),
      g ∈ aggregate history →
      ∃ b : ChangeBlock,
        ((allBlocks history).filter (fun b2 => keyOf b2 == g.title)).head? = some b
        ∧ g.icon = normIcon b := by
  intro history g hg
  unfold aggregate at hg
  obtain ⟨p, hp, hfp⟩ := List.mem_filterMap.mp hg
  obtain ⟨k, gd⟩ := p
  by_cases hcc : (computedChanges gd.rawChanges).isEmpty
  · rw [if_pos hcc] at hfp
    exact absurd hfp (by simp)
  · rw [if_neg hcc] at hfp
    have hgv : g = ⟨k, gd.icon, computedChanges gd.rawChanges⟩ :=
      (Option.some.injEq _ _ ▸ hfp).symm
    have hnodup : ((buildGroups (chronologicalHistory history)).map Prod.fst).Nodup := by
      unfold buildGroups
      rw [buildGroups_blocks]
      exact buildGroups_keys_nodup _ [] (by simp)
    have hlook : lookupG k (buildGroups (chronologicalHistory history)) = some gd :=
      mem_lookupG_of_nodup k gd _ hnodup hp
    have hicon : iconOf k (buildGroups (chronologicalHistory history)) = some gd.icon := by
      unfold iconOf
      rw [hlook]
      rfl
    unfold buildGroups at hicon
    rw [buildGroups_blocks, icon_foldl] at hicon
    have hspec : iconSpec k (allBlocks history) = some gd.icon := by
      unfold allBlocks
      have : iconOf k ([] : List (String × GroupData)) = none := rfl
      rw [this] at hicon
      simpa using hicon
    unfold iconSpec at hspec
    obtain ⟨b, hb, hbn⟩ := Option.map_eq_some'.mp hspec
    refine ⟨b, ?_, ?_⟩
    · rw [hgv]
      exact hb
    · rw [hgv]
      exact hbn.symm

/-- C8, witness: a 1-release history whose two "Q" blocks carry distinct
icons; the emitted icon is the first block's. -/
theorem c8_witness :
    ∃ b : ChangeBlock,
      ((allBlocks [⟨"1.0", [⟨some "Q", some "a.png", ["x"]⟩,
            ⟨some "Q", some "b.png", []⟩]⟩]).filter
          (fun b2 => keyOf b2 == (FinalGroup.mk "Q" (some "a.png") ["x"]).title)).head?
        = some b
      ∧ (FinalGroup.mk "Q" (some "a.png") ["x"]).icon = normIcon b :=
  c8_icon_retention
    [⟨"1.0", [⟨some "Q", some "a.png", ["x"]⟩, ⟨some "Q", some "b.png", []⟩]⟩]
    ⟨"Q", some "a.png", ["x"]⟩ (by decide)

/-!
## Version-comparator machinery (C5)
-/

/-- Well-formed version segments: nonempty digit runs. -/
def digitSegs (segs : List (List Char)) : Bool :=
  segs.all (fun s => !s.isEmpty && s.all isDigit)

/-- Join segments with dots (builds the version string `"a.b.c"`). -/
def verJoin : List (List Char) → List Char
  | [] => []
  | [s] => s
  | s :: rest => s ++ '.' :: verJoin rest

lemma digit_not_ws (c : Char) (h : isDigit c = true) : isWsJS c = false := by
  simp [isDigit] at h
  simp [isWsJS]
  omega

lemma digit_ne (c : Char) (h : isDigit c = true) : c ≠ '.' ∧ c ≠ '-' ∧ c ≠ '+' := by
  refine ⟨?_, ?_, ?_⟩ <;> intro he <;> subst he <;> exact absurd h (by decide)

lemma takeWhile_all {p : Char → Bool} :
    ∀ l : List Char, (∀ c ∈ l, p c = true) → l.takeWhile p = l := by
  intro l
  induction l with
  | nil => intro _; rfl
  | cons c rest ih =>
    intro h
    have hc := h c (List.mem_cons_self c rest)
    simp [List.takeWhile_cons, hc,
      ih (fun c2 hc2 => h c2 (List.mem_cons_of_mem c hc2))]

lemma parseIntJS_digits :
    ∀ l : List Char, l ≠ [] → (∀ c ∈ l, isDigit c = true) →
      parseIntJS l = some (digitsToNat l) := by
  intro l hne h
  cases l with
  | nil => exact absurd rfl hne
  | cons c rest =>
    have hc := h c (List.mem_cons_self c rest)
    have hws : isWsJS c = false := digit_not_ws c hc
    obtain ⟨_, hminus, hplus⟩ := digit_ne c hc
    have hdw : (c :: rest).dropWhile isWsJS = c :: rest := by
      simp [List.dropWhile_cons, hws]
    unfold parseIntJS
    rw [hdw]
    have hdv : digitsVal (c :: rest) = some (digitsToNat (c :: rest)) := by
      unfold digitsVal
      rw [takeWhile_all (c :: rest) h]
      simp
    simp [hminus, hplus, hdv]

lemma splitOnDot_append :
    ∀ (s t p : List Char) (ps : List (List Char)),
      (∀ c ∈ s, c ≠ '.') → splitOnDot t = p :: ps →
      splitOnDot (s ++ t) = (s ++ p) :: ps := by
  intro s
  induction s with
  | nil =>
    intro t p ps _ h
    simpa using h
  | cons c s2 ih =>
    intro t p ps hs h
    have hc : c ≠ '.' := hs c (List.mem_cons_self c s2)
    have ih2 := ih t p ps (fun c2 h2 => hs c2 (List.mem_cons_of_mem c h2)) h
    simp only [List.cons_append, splitOnDot, hc, if_false]
    rw [show splitOnDot (s2.append t) = (s2 ++ p) :: ps from ih2]

lemma verJoin_split :
    ∀ segs : List (List Char), segs ≠ [] → digitSegs segs = true →
      splitOnDot (verJoin segs) = segs := by
  intro segs
  induction segs with
  | nil => intro h _; exact absurd rfl h
  | cons s rest ih =>
    intro _ hd
    have hd2 : (!s.isEmpty && s.all isDigit) = true ∧ digitSegs rest = true := by
      simpa [digitSegs, List.all_cons] using hd
    have hsd : ∀ c ∈ s, isDigit c = true := by
      have := hd2.1
      simp only [Bool.and_eq_true, List.all_eq_true] at this
      exact this.2
    have hnd : ∀ c ∈ s, c ≠ '.' := fun c hc => (digit_ne c (hsd c hc)).1
    cases rest with
    | nil =>
      have := splitOnDot_append s [] [] [] hnd rfl
      simpa [verJoin] using this
    | cons s2 rest2 =>
      have hrec : splitOnDot (verJoin (s2 :: rest2)) = s2 :: rest2 :=
        ih (by simp) hd2.2
      have hdot : splitOnDot ('.' :: verJoin (s2 :: rest2)) = [] :: s2 :: rest2 := by
        simp [splitOnDot, hrec]
      have := splitOnDot_append s ('.' :: verJoin (s2 :: rest2)) [] (s2 :: rest2) hnd hdot
      simpa [verJoin] using this

lemma parseVersion_verJoin (segs : List (List Char)) (hd : digitSegs segs = true) :
    parseVersion ⟨verJoin segs⟩ = segs.map (fun s => (digitsToNat s : Int)) := by
  have haux : ∀ l : List (List Char), digitSegs l = true →
      ((l.map parseIntJS).filterMap id) = l.map (fun s => (digitsToNat s : Int)) := by
    intro l
    induction l with
    | nil => intro _; rfl
    | cons s2 r2 ih2 =>
      intro hdl
      have hdl2 : (!s2.isEmpty && s2.all isDigit) = true ∧ digitSegs r2 = true := by
        simpa [digitSegs, List.all_cons] using hdl
      have hne : s2 ≠ [] := by
        have := hdl2.1
        simp only [Bool.and_eq_true, Bool.not_eq_true'] at this
        intro he
        rw [he] at this
        simp at this
      have hdig : ∀ c ∈ s2, isDigit c = true := by
        have := hdl2.1
        simp only [Bool.and_eq_true, List.all_eq_true] at this
        exact this.2
      have h1 := parseIntJS_digits s2 hne hdig
      simp [List.filterMap_cons, h1, ih2 hdl2.2]
  cases hseg : segs with
  | nil => rfl
  | cons s rest =>
    unfold parseVersion
    rw [show (⟨verJoin (s :: rest)⟩ : String).data = verJoin (s :: rest) from rfl]
    rw [verJoin_split (s :: rest) (by simp) (hseg ▸ hd)]
    exact haux (s :: rest) (hseg ▸ hd)

lemma compareSegs_nil_left (ys : List Int) : compareSegs [] ys = -(segRemainder ys) := by
  cases ys <;> simp [compareSegs, segRemainder]

lemma compareSegs_antisym : ∀ x y : List Int, compareSegs x y = -(compareSegs y x) := by
  intro x
  induction x with
  | nil =>
    intro y
    cases y with
    | nil => simp [compareSegs, segRemainder]
    | cons b bs => simp [compareSegs_nil_left, compareSegs_nil_right]
  | cons a as ih =>
    intro y
    cases y with
    | nil => simp [compareSegs_nil_left, compareSegs_nil_right]
    | cons b bs =>
      by_cases hab : a = b
      · subst hab
        simp [compareSegs, ih bs]
      · simp only [compareSegs, hab, Ne.symm hab, if_true, if_pos, ne_eq,
          not_false_eq_true]
        omega

lemma compareSegs_trans : ∀ x y z : List Int,
    compareSegs x y ≤ 0 → compareSegs y z ≤ 0 → compareSegs x z ≤ 0 := by
  intro x
  induction x with
  | nil =>
    intro y
    induction y with
    | nil =>
      intro z h1 h2
      exact h2
    | cons b bs ihy =>
      intro z h1 h2
      cases z with
      | nil => simp [compareSegs, segRemainder]
      | cons c cs =>
        simp only [compareSegs_nil_left, compareSegs, segRemainder] at h1 h2 ⊢
        split_ifs at h1 h2 ⊢ <;> try omega
        all_goals {
          have hr := ihy cs (by rw [compareSegs_nil_left]; omega)
            (by assumption)
          rw [compareSegs_nil_left] at hr
          omega }
  | cons a as ih =>
    intro y z h1 h2
    cases y with
    | nil =>
      cases z with
      | nil => exact h1
      | cons c cs =>
        rw [compareSegs_nil_right] at h1
        rw [compareSegs_nil_left] at h2
        simp only [compareSegs, segRemainder] at h1 h2 ⊢
        split_ifs at h1 h2 ⊢ <;> try omega
        all_goals {
          have hr := ih [] cs (by rw [compareSegs_nil_right]; omega)
            (by rw [compareSegs_nil_left]; omega)
          omega }
    | cons b bs =>
      cases z with
      | nil =>
        rw [compareSegs_nil_right] at h2 ⊢
        simp only [compareSegs, segRemainder] at h1 h2 ⊢
        split_ifs at h1 h2 ⊢ <;> try omega
        all_goals {
          have hr := ih bs [] (by assumption) (by rw [compareSegs_nil_right]; omega)
          rw [compareSegs_nil_right] at hr
          omega }
      | cons c cs =>
        simp only [compareSegs] at h1 h2 ⊢
        split_ifs at h1 h2 ⊢ <;> try omega
        all_goals exact ih bs cs (by assumption) (by assumption)

/-- Plain lexicographic (character-wise) comparison of strings — what the
spec rules out for version ordering. -/
def lexLt : List Char → List Char → Bool
  | [], [] => false
  | [], _ :: _ => true
  | _ :: _, [] => false
  | a :: as, b :: bs => if a < b then true else if b < a then false else lexLt as bs

lemma mem_sortedInsert {α : Type} (le : α → α → Bool) (x a : α) :
    ∀ l : List α, a ∈ sortedInsert le x l ↔ a = x ∨ a ∈ l := by
  intro l
  induction l with
  | nil => simp [sortedInsert]
  | cons y ys ih =>
    by_cases h : le y x = true
    · rw [show sortedInsert le x (y :: ys) = y :: sortedInsert le x ys by
        simp [sortedInsert, h]]
      simp only [List.mem_cons, ih]
      tauto
    · rw [show sortedInsert le x (y :: ys) = x :: y :: ys by
        simp [sortedInsert, h]]
      simp only [List.mem_cons]

lemma pairwise_sortedInsert {α : Type} (le : α → α → Bool)
    (htot : ∀ a b, le a b = true ∨ le b a = true)
    (htrans : ∀ a b c, le a b = true → le b c = true → le a c = true)
    (x : α) :
    ∀ l : List α, l.Pairwise (fun a b => le a b = true) →
      (sortedInsert le x l).Pairwise (fun a b => le a b = true) := by
  intro l
  induction l with
  | nil => intro _; simp [sortedInsert]
  | cons y ys ih =>
    intro hp
    obtain ⟨hy, hys⟩ := List.pairwise_cons.mp hp
    by_cases h : le y x = true
    · rw [show sortedInsert le x (y :: ys) = y :: sortedInsert le x ys by
        simp [sortedInsert, h]]
      refine List.pairwise_cons.mpr ⟨?_, ih hys⟩
      intro z hz
      rcases (mem_sortedInsert le x z ys).mp hz with hzx | hzm
      · subst hzx; exact h
      · exact hy z hzm
    · rw [show sortedInsert le x (y :: ys) = x :: y :: ys by
        simp [sortedInsert, h]]
      have hxy : le x y = true := by
        rcases htot x y with h2 | h2
        · exact h2
        · exact absurd h2 h
      refine List.pairwise_cons.mpr ⟨?_, hp⟩
      intro z hz
      rcases List.mem_cons.mp hz with hzy | hzm
      · subst hzy; exact hxy
      · exact htrans x y z hxy (hy z hzm)

lemma pairwise_stableSort {α : Type} (le : α → α → Bool)
    (htot : ∀ a b, le a b = true ∨ le b a = true)
    (htrans : ∀ a b c, le a b = true → le b c = true → le a c = true) :
    ∀ l : List α, (stableSort le l).Pairwise (fun a b => le a b = true) := by
  have haux : ∀ (l acc : List α), acc.Pairwise (fun a b => le a b = true) →
      (l.foldl (fun acc x => sortedInsert le x acc) acc).Pairwise
        (fun a b => le a b = true) := by
    intro l
    induction l with
    | nil => intro acc h; exact h
    | cons x xs ih =>
      intro acc h
      exact ih _ (pairwise_sortedInsert le htot htrans x acc h)
  intro l
  exact haux l [] (by simp)

lemma verLe_total : ∀ a b : HistoryEntry, verLe a b = true ∨ verLe b a = true := by
  intro a b
  by_cases h : compareSegs (parseVersion a.patch_version)
      (parseVersion b.patch_version) ≤ 0
  · left
    simpa [verLe, compareVersions] using h
  · right
    have := compareSegs_antisym (parseVersion b.patch_version)
      (parseVersion a.patch_version)
    simp only [verLe, compareVersions, decide_eq_true_eq]
    omega

lemma verLe_trans :
    ∀ a b c : HistoryEntry, verLe a b = true → verLe b c = true → verLe a c = true := by
  intro a b c h1 h2
  simp only [verLe, compareVersions, decide_eq_true_eq] at h1 h2 ⊢
  exact compareSegs_trans _ _ _ h1 h2

/-- C5.  Version ordering: on well-formed dotted version strings the
comparator is exactly the numeric dot-segment-wise comparison (with missing
trailing segments read as 0, so the result on rendered segment lists equals
`compareSegs` of the segment values); "9.1" sorts before "10.1" although
string comparison orders them the other way; and the chronological history
is pairwise sorted by this comparator. -/
theorem c5_version_ordering :
    (∀ segs1 segs2 : List (List Char),
      digitSegs segs1 = true → digitSegs segs2 = true →
      compareVersions ⟨verJoin segs1⟩ ⟨verJoin segs2⟩
        = compareSegs (segs1.map (fun s => (digitsToNat s : Int)))
            (segs2.map (fun s => (digitsToNat s : Int))))
    ∧ compareVersions "9.1" "10.1" < 0
    ∧ 0 < compareVersions "10.1" "9.1"
    ∧ lexLt "10.1".data "9.1".data = true
    ∧ (∀ history : List HistoryEntry,
        (chronologicalHistory history).Pairwise
          (fun a b => compareVersions a.patch_version b.patch_version ≤ 0)) := by
  refine ⟨?_, by decide, by decide, by decide, ?_⟩
  · intro s1 s2 h1 h2
    unfold compareVersions
    rw [parseVersion_verJoin s1 h1, parseVersion_verJoin s2 h2]
  · intro history
    have hp := pairwise_stableSort verLe verLe_total verLe_trans history
    unfold chronologicalHistory
    exact hp.imp (fun h => by simpa [verLe] using h)

/-- C5, witness: the comparator characterization applied to the rendered
segment lists of "9.1" and "10.1". -/
theorem c5_witness :
    compareVersions ⟨verJoin [['9'], ['1']]⟩ ⟨verJoin [['1', '0'], ['1']]⟩
      = compareSegs ([['9'], ['1']].map (fun s => (digitsToNat s : Int)))
          ([['1', '0'], ['1']].map (fun s => (digitsToNat s : Int))) :=
  c5_version_ordering.1 [['9'], ['1']] [['1', '0'], ['1']] (by decide) (by decide)
